import Mathlib

/-!
# Verification of the Melo melody pipeline (backend)

Shallow embedding of the Python backend sources
(`music_theory.py`, `melody_enhancer.py`, `melody_generator.py`,
`rhythm_processor.py`) and proofs of the spec's testable properties.

Conventions of the embedding:
* Python floats are modelled as exact rationals (`ℚ`).
* Python ints are modelled as `ℤ` (Python `//` is floor division and `%` is
  a non-negative remainder for a positive modulus; for the modulus 12 and
  the sample rates used here these agree with Lean's `Int` `/` and `%`,
  which are Euclidean).
* Python `round` is round-half-to-even (`pyRound`); `int(...)` truncates
  toward zero (`pyTrunc`).
* Calls to `np.random.*` are modelled by explicit oracle parameters, so all
  theorems quantify over every possible random draw.
* A note dictionary `{"midi": m, "start": s, "end": e}` is the structure
  `Note`; the `end` key is named `stop` because `end` is reserved in Lean.
-/

namespace Melo

/-- Python 3 `round` to the nearest integer, halves to even. -/
def pyRound (q : ℚ) : ℤ :=
  let f := ⌊q⌋
  if q - f < 1/2 then f
  else if 1/2 < q - f then f + 1
  else if f % 2 = 0 then f else f + 1

/-- Python `int(...)` applied to a float: truncation toward zero. -/
def pyTrunc (q : ℚ) : ℤ :=
  if q < 0 then -⌊-q⌋ else ⌊q⌋

/-- A note event `{"midi": .., "start": .., "end": ..}`.
`stop` embeds the dictionary's `"end"` key (`end` is reserved in Lean). -/
structure Note where
  midi : ℤ
  start : ℚ
  stop : ℚ
  deriving DecidableEq, Repr

/-- The data-model invariant on a note: `start ≥ 0` and `end > start`. -/
def Note.WF (n : Note) : Prop := 0 ≤ n.start ∧ n.start < n.stop

instance : DecidablePred Note.WF := fun n => by unfold Note.WF; infer_instance

/-! ## music_theory.py -/

/-- `SCALES`: all scales as semitone intervals from the root note. -/
def SCALES : List (String × List ℤ) :=
  [("major", [0, 2, 4, 5, 7, 9, 11]),
   ("minor", [0, 2, 3, 5, 7, 8, 10]),
   ("harmonic_minor", [0, 2, 3, 5, 7, 8, 11]),
   ("melodic_minor", [0, 2, 3, 5, 7, 9, 11]),
   ("dorian", [0, 2, 3, 5, 7, 9, 10]),
   ("phrygian", [0, 1, 3, 5, 7, 8, 10]),
   ("lydian", [0, 2, 4, 6, 7, 9, 11]),
   ("mixolydian", [0, 2, 4, 5, 7, 9, 10]),
   ("locrian", [0, 1, 3, 5, 6, 8, 10]),
   ("major_pentatonic", [0, 2, 4, 7, 9]),
   ("minor_pentatonic", [0, 3, 5, 7, 10]),
   ("blues", [0, 3, 5, 6, 7, 10]),
   ("major_blues", [0, 2, 3, 4, 7, 9]),
   ("afrobeat", [0, 2, 3, 5, 7, 9, 10]),
   ("afro_pentatonic", [0, 2, 5, 7, 10]),
   ("trap", [0, 2, 3, 5, 7, 8, 11]),
   ("trap_pentatonic", [0, 3, 5, 7, 10]),
   ("arabic", [0, 1, 4, 5, 7, 8, 11]),
   ("japanese", [0, 1, 5, 7, 8]),
   ("hungarian_minor", [0, 2, 3, 6, 7, 8, 11]),
   ("spanish", [0, 1, 4, 5, 7, 8, 10])]

/-- `NOTE_NAMES`: note names for display (the 12 pitch classes, in the
sharp spelling, C first). -/
def NOTE_NAMES : List String :=
  ["C", "C#", "D", "D#", "E", "F"] ++ ["F#", "G", "G#", "A", "A#", "B"]

/-- `if root not in NOTE_NAMES: root = "C"; root_num = NOTE_NAMES.index(root)`. -/
def rootNum (root : String) : ℕ :=
  NOTE_NAMES.indexOf (if root ∈ NOTE_NAMES then root else "C")

/-- `if scale not in SCALES: scale = "minor"; scale_intervals = SCALES[scale]`. -/
def lookupScale (scale : String) : List ℤ :=
  match SCALES.lookup scale with
  | some l => l
  | none => (SCALES.lookup "minor").getD []

/-- Python `min(xs, key=lambda d: abs(d - rel))` over a nonempty list
`h :: t`: fold keeping the first element attaining the minimum key. -/
def minByDist (rel : ℤ) (h : ℤ) (t : List ℤ) : ℤ :=
  t.foldl (fun acc d => if |d - rel| < |acc - rel| then d else acc) h

/-- `quantize_to_scale`: snap a MIDI note to the nearest note in the
specified scale (music_theory.py). -/
def quantize_to_scale (midi_note : ℤ) (root : String) (scale : String) : ℤ :=
  let root_num : ℤ := rootNum root
  let scale_intervals := lookupScale scale
  let octave := midi_note / 12
  let pitch_class := midi_note % 12
  let relative_pitch := (pitch_class - root_num) % 12
  let closest :=
    match scale_intervals with
    | [] => 0  -- unreachable: every catalog scale is nonempty
    | h :: t => minByDist relative_pitch h t
  let quantized_pitch := (root_num + closest) % 12
  octave * 12 + quantized_pitch

/-! ### Catalog facts -/

lemma lookup_mem_snd {α β : Type} [BEq α] (ps : List (α × β)) (s : α) (l : β)
    (h : ps.lookup s = some l) : l ∈ ps.map Prod.snd := by
  induction ps with
  | nil => simp [List.lookup] at h
  | cons p t ih =>
    rw [List.lookup] at h
    by_cases hb : (s == p.1)
    · simp [hb] at h; simp [h]
    · simp [hb] at h
      exact List.mem_cons_of_mem _ (ih h)

lemma scale_lists_bounded :
    ∀ l ∈ SCALES.map Prod.snd, l ≠ [] ∧ ∀ x ∈ l, 0 ≤ x ∧ x < 12 := by
  decide

lemma lookupScale_mem (scale : String) : lookupScale scale ∈ SCALES.map Prod.snd := by
  unfold lookupScale
  cases h : SCALES.lookup scale with
  | some l => exact lookup_mem_snd _ _ _ h
  | none =>
    have : SCALES.lookup "minor" = some [0, 2, 3, 5, 7, 8, 10] := by decide
    rw [this]
    simp [SCALES]

lemma lookupScale_ne_nil (scale : String) : lookupScale scale ≠ [] :=
  (scale_lists_bounded _ (lookupScale_mem scale)).1

lemma lookupScale_bounded (scale : String) :
    ∀ x ∈ lookupScale scale, 0 ≤ x ∧ x < 12 :=
  (scale_lists_bounded _ (lookupScale_mem scale)).2

lemma rootNum_lt (root : String) : rootNum root < 12 := by
  unfold rootNum
  by_cases h : root ∈ NOTE_NAMES
  · simp only [h, if_pos]
    have : NOTE_NAMES.indexOf root < NOTE_NAMES.length := List.indexOf_lt_length.mpr h
    simpa [NOTE_NAMES] using this
  · simp only [h, if_neg, not_false_iff]
    decide

lemma minByDist_mem (rel : ℤ) (h : ℤ) (t : List ℤ) :
    minByDist rel h t ∈ h :: t := by
  unfold minByDist
  induction t generalizing h with
  | nil => simp
  | cons d t ih =>
    rw [List.foldl_cons]
    by_cases hc : |d - rel| < |h - rel|
    · rw [if_pos hc]
      exact List.mem_cons_of_mem _ (ih d)
    · rw [if_neg hc]
      rcases List.mem_cons.mp (ih h) with he | hm
      · rw [he]; exact List.mem_cons_self _ _
      · exact List.mem_cons_of_mem _ (List.mem_cons_of_mem _ hm)

/-- The scale interval matched by `quantize_to_scale` is a member of the
looked-up scale. -/
lemma quantize_closest_mem (midi_note : ℤ) (root scale : String) :
    ∃ closest ∈ lookupScale scale,
      quantize_to_scale midi_note root scale =
        midi_note / 12 * 12 + ((rootNum root : ℤ) + closest) % 12 := by
  unfold quantize_to_scale
  cases hl : lookupScale scale with
  | nil => exact absurd hl (lookupScale_ne_nil scale)
  | cons h t =>
    exact ⟨minByDist ((midi_note % 12 - rootNum root) % 12) h t,
      minByDist_mem _ h t, by simp⟩

/-! ### Claim C1 -/

/-- **C1.** For every MIDI pitch 0..127, every root name and every scale
name, the pitch returned by `quantize_to_scale` satisfies:
`(returned_pitch - root_offset) mod 12` is an element of the target scale's
interval set (the named scale, or the fallback scale when unknown). -/
theorem quantize_to_scale_in_scale (midi_note : ℤ) (root scale : String)
    (h0 : 0 ≤ midi_note) (h127 : midi_note ≤ 127) :
    (quantize_to_scale midi_note root scale - rootNum root) % 12 ∈
      lookupScale scale := by
  obtain ⟨c, hc, heq⟩ := quantize_closest_mem midi_note root scale
  obtain ⟨hc0, hc12⟩ := lookupScale_bounded scale c hc
  rw [heq]
  have : (midi_note / 12 * 12 + ((rootNum root : ℤ) + c) % 12 - rootNum root) % 12
      = c := by omega
  rwa [this]

/-- Witness for C1 at pitch 60, root C, scale major. -/
theorem quantize_to_scale_in_scale_witness :
    (0 ≤ (60 : ℤ) ∧ (60 : ℤ) ≤ 127) ∧
      (quantize_to_scale 60 "C" "major" - rootNum "C") % 12 ∈ lookupScale "major" :=
  ⟨⟨by norm_num, by norm_num⟩,
    quantize_to_scale_in_scale 60 "C" "major" (by norm_num) (by norm_num)⟩

/-! ### Claim C9 -/

/-- **C9.** The scale quantizer preserves the octave index
(`result / 12 = input / 12`, Python floor division); consequently the
result can differ from the input by 11 semitones, and an input in the top
octave can produce a result exceeding 127 (input 120 with root "B" and
scale "major" yields 131). -/
theorem quantize_to_scale_octave_preserved :
    (∀ (midi_note : ℤ) (root scale : String),
        quantize_to_scale midi_note root scale / 12 = midi_note / 12) ∧
      quantize_to_scale 120 "B" "major" = 131 ∧
      quantize_to_scale 120 "B" "major" - 120 = 11 ∧
      (120 : ℤ) ≤ 127 ∧ 127 < quantize_to_scale 120 "B" "major" := by
  refine ⟨?_, by decide, by decide, by norm_num, by decide⟩
  intro midi_note root scale
  obtain ⟨c, hc, heq⟩ := quantize_closest_mem midi_note root scale
  obtain ⟨hc0, hc12⟩ := lookupScale_bounded scale c hc
  rw [heq]
  omega

/-! ## melody_enhancer.py: smooth_melody -/

/-- Loop body of `smooth_melody`: walks the tail of the note list carrying
the midi of the previously emitted (already smoothed) note
(`smoothed[-1]["midi"]`). -/
def smoothAux (intensity : ℚ) (root scale : String) :
    ℤ → List Note → List Note
  | _, [] => []
  | prevMidi, n :: rest =>
    let interval := n.midi - prevMidi
    let newMidi :=
      if 5 < |interval| then
        -- target = prev + sign(interval) * min(|interval|, 3)
        let target : ℤ := prevMidi + interval.sign * min |interval| 3
        -- new = int(curr*(1-intensity) + target*intensity), then re-quantize
        quantize_to_scale
          (pyTrunc ((n.midi : ℚ) * (1 - intensity) + (target : ℚ) * intensity))
          root scale
      else n.midi
    ⟨newMidi, n.start, n.stop⟩ :: smoothAux intensity root scale newMidi rest

/-- `smooth_melody`: smooth out large melodic jumps (melody_enhancer.py). -/
def smooth_melody (notes : List Note) (intensity : ℚ)
    (root scale : String) : List Note :=
  if notes.length < 2 then notes
  else
    match notes with
    | [] => []
    | n0 :: rest => n0 :: smoothAux intensity root scale n0.midi rest

lemma smoothAux_frame (intensity : ℚ) (root scale : String) :
    ∀ (l : List Note) (p : ℤ),
      (smoothAux intensity root scale p l).length = l.length ∧
      ∀ k : ℕ,
        ((smoothAux intensity root scale p l).getD k ⟨0, 0, 0⟩).start =
          (l.getD k ⟨0, 0, 0⟩).start ∧
        ((smoothAux intensity root scale p l).getD k ⟨0, 0, 0⟩).stop =
          (l.getD k ⟨0, 0, 0⟩).stop := by
  intro l
  induction l with
  | nil => intro p; simp [smoothAux]
  | cons n rest ih =>
    intro p
    rw [smoothAux]
    refine ⟨by simpa using (ih _).1, ?_⟩
    intro k
    cases k with
    | zero => simp
    | succ k => simpa using (ih _).2 k

/-! ### Claim C10 -/

/-- **C10.** The smooth enhancer returns exactly as many notes as it
receives, and the i-th output note keeps the i-th input note's start and
end times; only pitches may change. -/
theorem smooth_melody_preserves_times (notes : List Note) (intensity : ℚ)
    (root scale : String) :
    (smooth_melody notes intensity root scale).length = notes.length ∧
    ∀ k : ℕ,
      ((smooth_melody notes intensity root scale).getD k ⟨0, 0, 0⟩).start =
        (notes.getD k ⟨0, 0, 0⟩).start ∧
      ((smooth_melody notes intensity root scale).getD k ⟨0, 0, 0⟩).stop =
        (notes.getD k ⟨0, 0, 0⟩).stop := by
  unfold smooth_melody
  by_cases h : notes.length < 2
  · simp [h]
  · rw [if_neg h]
    match notes with
    | [] => simp
    | n0 :: rest =>
      refine ⟨by simpa using (smoothAux_frame intensity root scale rest n0.midi).1, ?_⟩
      intro k
      cases k with
      | zero => simp
      | succ k => simpa using (smoothAux_frame intensity root scale rest n0.midi).2 k

/-! ## melody_enhancer.py: extend_melody_duration -/

/-- `max(n["end"] for n in notes)`.  The `0` base of the fold is inert for
well-formed notes (`end > start ≥ 0`) and the empty case is guarded by
every caller. -/
def maxEnd (l : List Note) : ℚ := l.foldr (fun n a => max n.stop a) 0

/-- Sorting by start time (`list.sort(key=lambda n: n["start"])`,
a stable sort). -/
def sortByStart (l : List Note) : List Note :=
  l.mergeSort (fun a b => a.start ≤ b.start)

/-- One appended copy's note: shifted by `offset`; the random octave/fifth
variation (`np.random.random() < 0.2` then `np.random.choice`) is modelled
by the oracle `vary`, returning `none` when no variation is applied and
`some v` for the chosen transposition. -/
def varyNote (vary : ℕ → ℕ → Option ℤ) (c i : ℕ) (offset : ℚ) (n : Note) :
    Note :=
  let m := match vary c i with
    | none => n.midi
    | some v => max 36 (min 96 (n.midi + v))
  ⟨m, n.start + offset, n.stop + offset⟩

/-- The `while offset < min_duration` loop of `extend_melody_duration`:
appends one time-shifted copy of the original notes per iteration and
advances `offset` by the original melody's duration `D`.  The source loop
diverges when `D ≤ 0` (impossible for well-formed notes); the model stops. -/
def extendAux (notes : List Note) (vary : ℕ → ℕ → Option ℤ)
    (D min_duration : ℚ) (offset : ℚ) (c : ℕ) : List Note :=
  if h : offset < min_duration ∧ 0 < D then
    (notes.enum.map fun p => varyNote vary c p.1 offset p.2) ++
      extendAux notes vary D min_duration (offset + D) (c + 1)
  else []
termination_by (⌈(min_duration - offset) / D⌉).toNat
decreasing_by
  have hD : 0 < D := h.2
  have h1 : (min_duration - (offset + D)) / D = (min_duration - offset) / D - 1 := by
    field_simp
    ring
  have h2 : (0 : ℚ) < (min_duration - offset) / D :=
    div_pos (by linarith [h.1]) hD
  have h3 : 1 ≤ ⌈(min_duration - offset) / D⌉ := Int.ceil_pos.mpr h2
  rw [h1]
  have h4 : ⌈(min_duration - offset) / D - 1⌉ = ⌈(min_duration - offset) / D⌉ - 1 := by
    exact_mod_cast Int.ceil_sub_int ((min_duration - offset) / D) 1
  rw [h4]
  omega

/-- `extend_melody_duration` (melody_enhancer.py): repeat the melody until
it reaches `min_duration`, trim notes starting past `min_duration`, and
sort by start time. -/
def extend_melody_duration (notes : List Note) (vary : ℕ → ℕ → Option ℤ)
    (min_duration : ℚ := 15) : List Note :=
  if notes = [] then []
  else
    let current_duration := maxEnd notes
    if min_duration ≤ current_duration then notes
    else
      let extended :=
        notes ++ extendAux notes vary current_duration min_duration current_duration 1
      let trimmed := extended.filter fun n => n.start < min_duration
      sortByStart trimmed

lemma le_maxEnd {n : Note} {l : List Note} (h : n ∈ l) : n.stop ≤ maxEnd l := by
  induction l with
  | nil => cases h
  | cons m t ih =>
    rcases List.mem_cons.mp h with he | hm
    · rw [he, maxEnd, List.foldr_cons]; exact le_max_left _ _
    · calc n.stop ≤ maxEnd t := ih hm
        _ ≤ max m.stop (maxEnd t) := le_max_right _ _

lemma maxEnd_nonneg (l : List Note) : 0 ≤ maxEnd l := by
  induction l with
  | nil => simp [maxEnd]
  | cons m t ih =>
    calc (0 : ℚ) ≤ maxEnd t := ih
      _ ≤ max m.stop (maxEnd t) := le_max_right _ _

lemma maxEnd_attained (l : List Note) :
    maxEnd l = 0 ∨ ∃ n ∈ l, maxEnd l = n.stop := by
  induction l with
  | nil => left; rfl
  | cons m t ih =>
    have hm : maxEnd (m :: t) = max m.stop (maxEnd t) := rfl
    by_cases hc : maxEnd t ≤ m.stop
    · right; exact ⟨m, List.mem_cons_self _ _, by rw [hm, max_eq_left hc]⟩
    · rw [hm, max_eq_right (le_of_not_le hc)]
      rcases ih with h0 | ⟨n, hn, he⟩
      · left; exact h0
      · right; exact ⟨n, List.mem_cons_of_mem _ hn, he⟩

lemma mem_sortByStart {n : Note} {l : List Note} :
    n ∈ sortByStart l ↔ n ∈ l :=
  (List.mergeSort_perm l _).mem_iff

/-! ### Claim C2 -/

/-- **C2 counterexample.** The claim fails on both conjuncts. (1) Input
`[{60,0,0.5}, {60,7.625,7.75}]` has duration 7.75 < 15; one copy is
appended at offset 7.75, but its last note (start 15.375) is trimmed, so
the output duration is 8.25 < 15. (2) Input `[{60,20,21}]` already meets
the threshold and is returned unchanged, so its note has start 20 ≥ 15. -/
theorem extend_melody_duration_cex :
    maxEnd (extend_melody_duration
        [⟨60, 0, 1/2⟩, ⟨60, 61/8, 31/4⟩] (fun _ _ => none) 15) = 33/4 ∧
    ((33 : ℚ)/4 < 15) ∧
    extend_melody_duration [⟨60, 20, 21⟩] (fun _ _ => none) 15 = [⟨60, 20, 21⟩] ∧
    ¬ ((20 : ℚ) < 15) := by
  refine ⟨?_, by norm_num, ?_, by norm_num⟩
  · rw [extend_melody_duration]
    rw [if_neg (by simp)]
    have hmax : maxEnd [(⟨60, 0, 1/2⟩ : Note), ⟨60, 61/8, 31/4⟩] = 31/4 := by
      simp [maxEnd]; norm_num
    rw [hmax]
    rw [if_neg (by norm_num)]
    rw [extendAux]
    rw [dif_pos (by norm_num)]
    rw [extendAux]
    rw [dif_neg (by norm_num)]
    simp only [List.enum, List.enumFrom, List.map, varyNote, List.append_nil]
    norm_num
    rw [sortByStart]
    rw [List.mergeSort_of_sorted (by norm_num [List.pairwise_cons])]
    simp only [maxEnd, List.foldr]
    norm_num
  · rw [extend_melody_duration]
    rw [if_neg (by simp)]
    have hmax : maxEnd [(⟨60, 20, 21⟩ : Note)] = 21 := by
      simp only [maxEnd, List.foldr]
      norm_num
    rw [hmax]
    rw [if_pos (by norm_num)]

/-- **C2 (amended).** For every nonempty well-formed note list and every
random draw, the Duration Extender's output duration is at least the
*input's* duration (not necessarily ≥ `min_duration`: trimming may drop the
notes that reached past it), and whenever the input duration is below
`min_duration` every output note satisfies `start < min_duration`. -/
theorem extend_melody_duration_bounds (notes : List Note)
    (vary : ℕ → ℕ → Option ℤ) (min_duration : ℚ)
    (hne : notes ≠ []) (hwf : ∀ n ∈ notes, n.WF) :
    maxEnd notes ≤ maxEnd (extend_melody_duration notes vary min_duration) ∧
    (maxEnd notes < min_duration →
      ∀ n ∈ extend_melody_duration notes vary min_duration,
        n.start < min_duration) := by
  unfold extend_melody_duration
  rw [if_neg hne]
  by_cases hd : min_duration ≤ maxEnd notes
  · rw [if_pos hd]
    exact ⟨le_refl _, fun hlt _ _ => absurd hd (not_le.mpr hlt)⟩
  · rw [if_neg hd]
    have hlt : maxEnd notes < min_duration := not_le.mp hd
    have hkeep : ∀ n ∈ notes,
        n ∈ sortByStart
          ((notes ++ extendAux notes vary (maxEnd notes) min_duration
              (maxEnd notes) 1).filter fun n => n.start < min_duration) := by
      intro n hn
      rw [mem_sortByStart, List.mem_filter]
      refine ⟨List.mem_append_left _ hn, ?_⟩
      have h1 : n.start < n.stop := (hwf n hn).2
      have h2 : n.stop ≤ maxEnd notes := le_maxEnd hn
      simp only [decide_eq_true_eq]
      linarith
    constructor
    · rcases maxEnd_attained notes with h0 | ⟨m, hm, he⟩
      · rw [h0]; exact maxEnd_nonneg _
      · conv_lhs => rw [he]
        exact le_maxEnd (hkeep m hm)
    · intro _ n hn
      rw [mem_sortByStart, List.mem_filter] at hn
      simpa using hn.2

/-- Witness for C2 (amended) at the single note `{60, 0, 1}`. -/
theorem extend_melody_duration_bounds_witness :
    maxEnd [(⟨60, 0, 1⟩ : Note)] ≤
      maxEnd (extend_melody_duration [⟨60, 0, 1⟩] (fun _ _ => none) 15) ∧
    (maxEnd [(⟨60, 0, 1⟩ : Note)] < 15 →
      ∀ n ∈ extend_melody_duration [⟨60, 0, 1⟩] (fun _ _ => none) 15,
        n.start < 15) :=
  extend_melody_duration_bounds [⟨60, 0, 1⟩] (fun _ _ => none) 15
    (by simp)
    (by intro n hn; rw [List.mem_singleton] at hn; rw [hn]
        exact ⟨le_refl 0, by norm_num⟩)

/-! ## melody_enhancer.py: afro_vibe_melody -/

/-- `new_note` of `afro_vibe_melody`: odd-indexed notes are shifted forward
by `grid_size * 0.3 * intensity` (with `beat_duration = 0.5` and
`grid_size = beat_duration / 4`), but only when `intensity > 0.3`. -/
def afroNewNote (intensity : ℚ) (i : ℕ) (n : Note) : Note :=
  if i % 2 = 1 ∧ 3/10 < intensity then
    let beat_duration : ℚ := 1/2
    let grid_size := beat_duration / 4
    let offset := grid_size * (3/10) * intensity
    ⟨n.midi, n.start + offset, n.stop + offset⟩
  else n

/-- Loop of `afro_vibe_melody` over `enumerate(notes)`: the stutter
insertion (`np.random.random() < 0.3`) is modelled by the oracle
`stutter`.  `i < len(notes) - 1` is the `rest ≠ []` test. -/
def afroAux (intensity : ℚ) (stutter : ℕ → Bool) :
    ℕ → List Note → List Note
  | _, [] => []
  | i, n :: rest =>
    let new_note := afroNewNote intensity i n
    match rest with
    | [] => [new_note]
    | next :: _ =>
      let gap := next.start - n.stop
      if 3/5 < intensity ∧ 1/5 < gap ∧ stutter i then
        let rep_duration := min (1/10) (gap * (2/5))
        new_note ::
          ⟨n.midi, n.stop + gap * (3/10), n.stop + gap * (3/10) + rep_duration⟩ ::
          afroAux intensity stutter (i + 1) rest
      else new_note :: afroAux intensity stutter (i + 1) rest

/-- `afro_vibe_melody` (melody_enhancer.py): syncopation shift plus
occasional stutter notes, re-sorted by start time.  `root` and `scale` are
accepted (and ignored) exactly as in the source. -/
def afro_vibe_melody (notes : List Note) (intensity : ℚ)
    (root scale : String) (stutter : ℕ → Bool) : List Note :=
  sortByStart (afroAux intensity stutter 0 notes)

lemma afroAux_newNote_mem (intensity : ℚ) (stutter : ℕ → Bool) :
    ∀ (l : List Note) (i0 k : ℕ) (hk : k < l.length),
      afroNewNote intensity (i0 + k) (l.get ⟨k, hk⟩) ∈
        afroAux intensity stutter i0 l := by
  intro l
  induction l with
  | nil => intro i0 k hk; cases hk
  | cons n rest ih =>
    intro i0 k hk
    cases rest with
    | nil =>
      have hk0 : k = 0 := Nat.lt_one_iff.mp (by simpa using hk)
      subst hk0
      simp [afroAux]
    | cons next r =>
      cases k with
      | zero =>
        simp only [Nat.add_zero, List.get]
        rw [afroAux]
        by_cases hc : 3/5 < intensity ∧ 1/5 < next.start - n.stop ∧ stutter i0
        · simp only [hc, and_self, if_pos]
          exact List.mem_cons_self _ _
        · simp only [if_neg hc]
          exact List.mem_cons_self _ _
      | succ k =>
        have hk' : k < (next :: r).length := Nat.lt_of_succ_lt_succ hk
        have hmem := ih (i0 + 1) k hk'
        have harith : i0 + 1 + k = i0 + (k + 1) := by omega
        rw [harith] at hmem
        have hget : (next :: r).get ⟨k, hk'⟩ = (n :: next :: r).get ⟨k + 1, hk⟩ := rfl
        rw [hget] at hmem
        rw [afroAux]
        by_cases hc : 3/5 < intensity ∧ 1/5 < next.start - n.stop ∧ stutter i0
        · simp only [hc, and_self, if_pos]
          exact List.mem_cons_of_mem _ (List.mem_cons_of_mem _ hmem)
        · simp only [if_neg hc]
          exact List.mem_cons_of_mem _ hmem

/-! ### Claim C7 -/

/-- **C7 counterexample.** At intensity 0.2 (positive, but not above the
0.3 gate in the code), the odd-indexed note is *not* shifted: the output
equals the input, while the claim demands a shift of
`0.125 * 0.3 * 0.2 = 0.0075` seconds. -/
theorem afro_vibe_melody_cex :
    afro_vibe_melody [⟨60, 0, 1/10⟩, ⟨62, 1/2, 3/5⟩] (1/5) "C" "minor"
        (fun _ => false) = [⟨60, 0, 1/10⟩, ⟨62, 1/2, 3/5⟩] ∧
    ((1/2 : ℚ) ≠ 1/2 + 1/2/4 * (3/10) * (1/5)) := by
  constructor
  · rw [afro_vibe_melody, afroAux]
    rw [if_neg (by norm_num)]
    rw [afroAux]
    simp only [afroNewNote]
    norm_num
    rw [sortByStart, List.mergeSort_of_sorted (by norm_num [List.pairwise_cons])]
  · norm_num

/-- **C7 (amended).** The afro_vibe enhancer shifts every odd-indexed
note's start (and end) forward by `0.125 * 0.3 * intensity` seconds — but
only when `intensity > 0.3`; for `intensity ≤ 0.3` (including all of
`(0, 0.3]`) odd-indexed notes pass through unshifted.  Membership is
stated up to the final re-sort. -/
theorem afro_vibe_melody_odd_shift (notes : List Note) (intensity : ℚ)
    (root scale : String) (stutter : ℕ → Bool) (i : ℕ)
    (hi : i < notes.length) (hodd : i % 2 = 1) :
    (3/10 < intensity →
      (⟨(notes.get ⟨i, hi⟩).midi,
         (notes.get ⟨i, hi⟩).start + 1/2/4 * (3/10) * intensity,
         (notes.get ⟨i, hi⟩).stop + 1/2/4 * (3/10) * intensity⟩ : Note) ∈
        afro_vibe_melody notes intensity root scale stutter) ∧
    (intensity ≤ 3/10 →
      notes.get ⟨i, hi⟩ ∈ afro_vibe_melody notes intensity root scale stutter) := by
  have hmem := afroAux_newNote_mem intensity stutter notes 0 i hi
  rw [Nat.zero_add] at hmem
  constructor
  · intro hI
    rw [afro_vibe_melody, mem_sortByStart]
    have he : afroNewNote intensity i (notes.get ⟨i, hi⟩) =
        ⟨(notes.get ⟨i, hi⟩).midi,
         (notes.get ⟨i, hi⟩).start + 1/2/4 * (3/10) * intensity,
         (notes.get ⟨i, hi⟩).stop + 1/2/4 * (3/10) * intensity⟩ := by
      rw [afroNewNote, if_pos ⟨hodd, hI⟩]
    rwa [he] at hmem
  · intro hI
    rw [afro_vibe_melody, mem_sortByStart]
    have he : afroNewNote intensity i (notes.get ⟨i, hi⟩) = notes.get ⟨i, hi⟩ := by
      rw [afroNewNote, if_neg (by rintro ⟨-, h⟩; exact absurd hI (not_le.mpr h))]
    rwa [he] at hmem

/-- Witness for C7 (amended): intensity 0.5, two notes, stutter oracle
always false; the odd-indexed note appears shifted by 0.0375 * 0.5. -/
theorem afro_vibe_melody_odd_shift_witness :
    (⟨62, 1/2 + 1/2/4 * (3/10) * (1/2), 3/5 + 1/2/4 * (3/10) * (1/2)⟩ : Note) ∈
      afro_vibe_melody [⟨60, 0, 1/10⟩, ⟨62, 1/2, 3/5⟩] (1/2) "C" "minor"
        (fun _ => false) := by
  have h := (afro_vibe_melody_odd_shift [⟨60, 0, 1/10⟩, ⟨62, 1/2, 3/5⟩] (1/2)
    "C" "minor" (fun _ => false) 1 (by norm_num) (by norm_num)).1 (by norm_num)
  simpa using h

/-! ## rhythm_processor.py: quantize_rhythm -/

/-- Grid divisions: `{"1/4": 1.0, "1/8": 0.5, "1/16": 0.25, "1/32": 0.125}`;
an unknown grid falls back to 0.5 (`grid_divisions.get(grid, 0.5)`). -/
def grid_divisions : List (String × ℚ) :=
  [("1/4", 1), ("1/8", 1/2), ("1/16", 1/4), ("1/32", 1/8)]

/-- `grid_size = (60 / bpm) * grid_divisions.get(grid, 0.5)`. -/
def gridSize (bpm : ℚ) (grid : String) : ℚ :=
  (60 / bpm) * ((grid_divisions.lookup grid).getD (1/2))

/-- `get_groove_pattern` (rhythm_processor.py); the `grid` argument is
accepted and ignored exactly as in the source. -/
def get_groove_pattern (template grid : String) : List ℚ :=
  let patterns : List (String × List ℚ) :=
    [("straight", [0, 0, 0, 0, 0, 0, 0, 0]),
     ("swing", [0, 3/20, 0, 3/20, 0, 3/20, 0, 3/20]),
     ("afrobeat", [0, 1/20, 1/10, 0, 2/25, 0, 3/25, 1/20]),
     ("trap", [0, 0, 1/5, 0, 1/10, 0, 3/20, 0]),
     ("shuffle", [0, 1/4, 0, 1/4, 0, 1/4, 0, 1/4]),
     ("drunk", [1/50, -3/100, 1/25, -1/50, 3/100, -1/25, 1/100, -1/100])]
  (patterns.lookup template).getD [0, 0, 0, 0, 0, 0, 0, 0]

/-- Per-note body of the `quantize_rhythm` loop.  The humanization draw
(`np.random.uniform(-max_deviation, max_deviation)`) is modelled by the
oracle `rand`, consulted only when `humanize > 0`. -/
def quantizeNote (grid_size : ℚ) (groove : List ℚ) (humanize : ℚ)
    (rand : ℕ → ℚ) (i : ℕ) (note : Note) : Note :=
  let start := note.start
  let duration := note.stop - start
  let grid_position := pyRound (start / grid_size)
  let quantized_start := grid_position * grid_size
  let groove_index := grid_position % (groove.length : ℤ)
  let swing_offset := groove.getD groove_index.toNat 0 * grid_size
  let qs1 := quantized_start + swing_offset
  let qs2 := if 0 < humanize then qs1 + rand i else qs1
  let duration_grids : ℤ := max 1 (pyRound (duration / grid_size))
  let quantized_end := qs2 + (duration_grids : ℚ) * grid_size
  let qs3 := max 0 qs2
  let qe3 := max (qs3 + 1/20) quantized_end
  ⟨note.midi, qs3, qe3⟩

/-- The trailing "normalize to start at 0" step of `quantize_rhythm`:
subtract the first (earliest, after sorting) start from all times. -/
def rebase (l : List Note) : List Note :=
  match l with
  | [] => []
  | first :: _ =>
    l.map fun n => ⟨n.midi, n.start - first.start, n.stop - first.start⟩

/-- `quantize_rhythm` (rhythm_processor.py): snap note timings to a
rhythmic grid, apply groove and optional humanization, sort by start and
rebase to start at 0. -/
def quantize_rhythm (notes : List Note) (grid : String) (bpm : ℚ)
    (humanize : ℚ) (groove_template : String) (rand : ℕ → ℚ) : List Note :=
  if notes = [] then []
  else
    rebase (sortByStart (notes.enum.map fun p =>
      quantizeNote (gridSize bpm grid) (get_groove_pattern groove_template grid)
        humanize rand p.1 p.2))

/-! ### Rounding facts -/

lemma pyRound_intCast (z : ℤ) : pyRound (z : ℚ) = z := by
  simp [pyRound]

lemma pyRound_natCast (a : ℕ) : pyRound (a : ℚ) = a := by
  have : ((a : ℤ) : ℚ) = (a : ℚ) := by push_cast; ring
  rw [← this, pyRound_intCast]

lemma pyRound_nonneg {q : ℚ} (h : 0 ≤ q) : 0 ≤ pyRound q := by
  have hf : 0 ≤ ⌊q⌋ := Int.floor_nonneg.mpr h
  show 0 ≤ (if q - (⌊q⌋ : ℚ) < 1/2 then ⌊q⌋
    else if 1/2 < q - (⌊q⌋ : ℚ) then ⌊q⌋ + 1
    else if ⌊q⌋ % 2 = 0 then ⌊q⌋ else ⌊q⌋ + 1)
  split
  · exact hf
  · split
    · omega
    · split <;> omega

lemma straight_groove (grid : String) :
    get_groove_pattern "straight" grid = [0, 0, 0, 0, 0, 0, 0, 0] :=
  rfl

lemma zeros_getD (k : ℕ) : ([0, 0, 0, 0, 0, 0, 0, 0] : List ℚ).getD k 0 = 0 := by
  rcases k with _ | _ | _ | _ | _ | _ | _ | _ | k <;>
    simp [List.getD, List.getElem?_eq_none]

/-- With the straight groove and `humanize = 0`, the per-note quantization
reduces to pure grid snapping with the duration and minimum-length clamps. -/
lemma quantizeNote_eq (g : ℚ) (r : ℕ → ℚ) (i : ℕ) (n : Note) :
    quantizeNote g [0, 0, 0, 0, 0, 0, 0, 0] 0 r i n =
      ⟨n.midi, max 0 ((pyRound (n.start / g) : ℚ) * g),
        max (max 0 ((pyRound (n.start / g) : ℚ) * g) + 1/20)
          ((pyRound (n.start / g) : ℚ) * g +
            ((max 1 (pyRound ((n.stop - n.start) / g)) : ℤ) : ℚ) * g)⟩ := by
  unfold quantizeNote
  simp only [zeros_getD]
  norm_num

/-- Every output note of the straight/humanize-0 per-note quantization is
grid-aligned: its start is a natural multiple of the cell and its duration
a positive natural number of cells. -/
lemma quantizeNote_aligns (g : ℚ) (hg : 1/20 ≤ g) (r : ℕ → ℚ) (i : ℕ)
    (m : ℤ) (s e : ℚ) (hs : 0 ≤ s) :
    ∃ a d : ℕ, 1 ≤ d ∧
      quantizeNote g [0, 0, 0, 0, 0, 0, 0, 0] 0 r i ⟨m, s, e⟩ =
        ⟨m, (a : ℚ) * g, (a : ℚ) * g + (d : ℚ) * g⟩ := by
  have hg0 : 0 < g := by linarith
  have hk : 0 ≤ pyRound (s / g) := pyRound_nonneg (div_nonneg hs hg0.le)
  set k := pyRound (s / g) with hkdef
  set dgz : ℤ := max 1 (pyRound ((e - s) / g)) with hdgdef
  have hd1 : (1 : ℤ) ≤ dgz := le_max_left _ _
  refine ⟨k.toNat, dgz.toNat, by omega, ?_⟩
  rw [quantizeNote_eq]
  have hkc : ((k.toNat : ℕ) : ℚ) = (k : ℚ) := by
    exact_mod_cast Int.toNat_of_nonneg hk
  have hdc : ((dgz.toNat : ℕ) : ℚ) = (dgz : ℚ) := by
    exact_mod_cast Int.toNat_of_nonneg (by omega)
  have h4 : max (0 : ℚ) ((k : ℚ) * g) = (k : ℚ) * g :=
    max_eq_right (mul_nonneg (by exact_mod_cast hk) hg0.le)
  have h5 : max ((k : ℚ) * g + 1/20) ((k : ℚ) * g + (dgz : ℚ) * g) =
      (k : ℚ) * g + (dgz : ℚ) * g := by
    apply max_eq_right
    have hdq : (1 : ℚ) ≤ (dgz : ℚ) := by exact_mod_cast hd1
    nlinarith
  simp only [hkdef, hdgdef] at h4 h5 ⊢
  rw [h4, h5, hkc, hdc]

/-- A note that is already grid-aligned (start a natural multiple of the
cell, duration a positive natural number of cells, cell ≥ 0.05 s) is a
fixed point of the straight/humanize-0 per-note quantization. -/
lemma quantizeNote_fixed (g : ℚ) (hg : 1/20 ≤ g) (r : ℕ → ℚ) (i : ℕ)
    (m : ℤ) (s e : ℚ) (a d : ℕ) (hd : 1 ≤ d)
    (hs : s = (a : ℚ) * g) (he : e = s + (d : ℚ) * g) :
    quantizeNote g [0, 0, 0, 0, 0, 0, 0, 0] 0 r i ⟨m, s, e⟩ = ⟨m, s, e⟩ := by
  subst he
  subst hs
  have hg0 : 0 < g := by linarith
  rw [quantizeNote_eq]
  have h1 : ((a : ℚ) * g) / g = ((a : ℤ) : ℚ) := by push_cast; field_simp
  have h2 : ((a : ℚ) * g + (d : ℚ) * g - (a : ℚ) * g) / g = ((d : ℤ) : ℚ) := by
    push_cast; field_simp
  rw [h1, h2, pyRound_intCast, pyRound_intCast]
  have h3 : max (1 : ℤ) (d : ℤ) = (d : ℤ) := max_eq_right (by exact_mod_cast hd)
  rw [h3]
  have h4 : max (0 : ℚ) (((a : ℤ) : ℚ) * g) = ((a : ℤ) : ℚ) * g :=
    max_eq_right (mul_nonneg (by positivity) hg0.le)
  rw [h4]
  have h5 : max (((a : ℤ) : ℚ) * g + 1/20)
      (((a : ℤ) : ℚ) * g + ((d : ℤ) : ℚ) * g) =
      ((a : ℤ) : ℚ) * g + ((d : ℤ) : ℚ) * g := by
    apply max_eq_right
    have hdq : (1 : ℚ) ≤ ((d : ℤ) : ℚ) := by exact_mod_cast hd
    nlinarith
  rw [h5]
  simp only [Note.mk.injEq, true_and]
  constructor <;> push_cast <;> ring

/-! ### Structure of the quantizer output -/

lemma rebase_cons (first : Note) (t : List Note) :
    rebase (first :: t) =
      (first :: t).map fun n =>
        ⟨n.midi, n.start - first.start, n.stop - first.start⟩ := rfl

lemma rebase_pairwise {l : List Note}
    (h : l.Pairwise fun x y => x.start ≤ y.start) :
    (rebase l).Pairwise fun x y => x.start ≤ y.start := by
  cases l with
  | nil => simp [rebase]
  | cons f t =>
    rw [rebase_cons]
    refine List.Pairwise.map _ ?_ h
    intro a b hab
    simpa using by linarith

lemma rebase_eq_self (f : Note) (t : List Note) (hf : f.start = 0) :
    rebase (f :: t) = f :: t := by
  rw [rebase_cons]
  have hpt : ∀ n ∈ f :: t,
      (⟨n.midi, n.start - f.start, n.stop - f.start⟩ : Note) = id n := by
    intro n _
    rw [hf]
    cases n
    simp
  rw [List.map_congr_left hpt, List.map_id]

lemma sortByStart_sorted (l : List Note) :
    (sortByStart l).Pairwise fun x y => x.start ≤ y.start := by
  have h := @List.sorted_mergeSort Note
    (fun a b : Note => decide (a.start ≤ b.start))
    (fun a b c hab hbc => by
      simp only [decide_eq_true_eq] at *
      exact le_trans hab hbc)
    (fun a b => by simpa using le_total a.start b.start) l
  exact h.imp (by intro a b hab; simpa using hab)

lemma sortByStart_eq_self {l : List Note}
    (h : l.Pairwise fun x y => x.start ≤ y.start) :
    sortByStart l = l :=
  List.mergeSort_of_sorted (h.imp (by intro a b hab; simpa using hab))

lemma quantize_rhythm_sorted (notes : List Note) (grid : String) (bpm hum : ℚ)
    (gt : String) (r : ℕ → ℚ) :
    (quantize_rhythm notes grid bpm hum gt r).Pairwise
      fun x y => x.start ≤ y.start := by
  unfold quantize_rhythm
  split
  · simp
  · exact rebase_pairwise (sortByStart_sorted _)

lemma quantize_rhythm_head_start (notes : List Note) (grid : String)
    (bpm hum : ℚ) (gt : String) (r : ℕ → ℚ) (hne : notes ≠ []) :
    ∃ f t, quantize_rhythm notes grid bpm hum gt r = f :: t ∧ f.start = 0 := by
  unfold quantize_rhythm
  rw [if_neg hne]
  have hSlen : (sortByStart (notes.enum.map fun p =>
      quantizeNote (gridSize bpm grid) (get_groove_pattern gt grid)
        hum r p.1 p.2)).length = notes.length := by
    rw [sortByStart, List.length_mergeSort, List.length_map, List.enum_length]
  cases hS : sortByStart (notes.enum.map fun p =>
      quantizeNote (gridSize bpm grid) (get_groove_pattern gt grid)
        hum r p.1 p.2) with
  | nil =>
    rw [hS] at hSlen
    exact absurd (List.length_eq_zero.mp hSlen.symm) hne
  | cons f0 t0 =>
    exact ⟨⟨f0.midi, 0, f0.stop - f0.start⟩,
      t0.map fun n => ⟨n.midi, n.start - f0.start, n.stop - f0.start⟩,
      by rw [rebase_cons]; simp [sub_self], rfl⟩

lemma quantize_rhythm_ne_nil (notes : List Note) (grid : String)
    (bpm hum : ℚ) (gt : String) (r : ℕ → ℚ) (hne : notes ≠ []) :
    quantize_rhythm notes grid bpm hum gt r ≠ [] := by
  obtain ⟨f, t, hft, -⟩ := quantize_rhythm_head_start notes grid bpm hum gt r hne
  rw [hft]
  simp

/-- Shape of an element of the pre-sort quantized list (straight groove,
`humanize = 0`). -/
lemma quantized_mem_shape (notes : List Note) (g : ℚ) (hg : 1/20 ≤ g)
    (r : ℕ → ℚ) (hs : ∀ n ∈ notes, 0 ≤ n.start) {x : Note}
    (hx : x ∈ notes.enum.map fun p =>
      quantizeNote g [0, 0, 0, 0, 0, 0, 0, 0] 0 r p.1 p.2) :
    ∃ (m : ℤ) (a d : ℕ), 1 ≤ d ∧
      x = ⟨m, (a : ℚ) * g, (a : ℚ) * g + (d : ℚ) * g⟩ := by
  rw [List.mem_map] at hx
  obtain ⟨p, hp, hpe⟩ := hx
  have h2 : p.2 ∈ notes := List.snd_mem_of_mem_enum hp
  obtain ⟨a, d, hd, he⟩ :=
    quantizeNote_aligns g hg r p.1 p.2.midi p.2.start p.2.stop (hs _ h2)
  exact ⟨p.2.midi, a, d, hd, by rw [← hpe]; exact he⟩

/-- Every note of the straight/humanize-0 rhythm quantizer's output is
grid-aligned: start a natural multiple of the cell, duration a positive
natural number of cells. -/
lemma quantize_rhythm_straight_aligned (notes : List Note) (grid : String)
    (bpm : ℚ) (r : ℕ → ℚ) (hg : 1/20 ≤ gridSize bpm grid)
    (hs : ∀ n ∈ notes, 0 ≤ n.start) :
    ∀ n ∈ quantize_rhythm notes grid bpm 0 "straight" r,
      ∃ a d : ℕ, 1 ≤ d ∧ n.start = (a : ℚ) * gridSize bpm grid ∧
        n.stop = n.start + (d : ℚ) * gridSize bpm grid := by
  intro n hn
  by_cases hne : notes = []
  · rw [hne] at hn
    simp [quantize_rhythm] at hn
  · unfold quantize_rhythm at hn
    rw [if_neg hne, straight_groove] at hn
    set M := notes.enum.map fun p =>
      quantizeNote (gridSize bpm grid) [0, 0, 0, 0, 0, 0, 0, 0] 0 r p.1 p.2
      with hM
    have hg0 : 0 < gridSize bpm grid := by linarith
    cases hS : sortByStart M with
    | nil =>
      rw [hS] at hn
      cases hn
    | cons f t =>
      rw [hS, rebase_cons, List.mem_map] at hn
      obtain ⟨n', hn', he⟩ := hn
      have hfM : f ∈ M := mem_sortByStart.mp (hS ▸ List.mem_cons_self f t)
      have hn'M : n' ∈ M := mem_sortByStart.mp (hS ▸ hn')
      obtain ⟨m0, a0, d0, hd0, hf0⟩ := quantized_mem_shape notes _ hg r hs hfM
      obtain ⟨m1, a1, d1, hd1, hn1⟩ := quantized_mem_shape notes _ hg r hs hn'M
      have hsorted := sortByStart_sorted M
      rw [hS] at hsorted
      have hle : f.start ≤ n'.start := by
        rcases List.mem_cons.mp hn' with h | h
        · rw [h]
        · exact (List.pairwise_cons.mp hsorted).1 n' h
      have ha : a0 ≤ a1 := by
        rw [hf0, hn1] at hle
        simp only [] at hle
        have := (mul_le_mul_right hg0).mp hle
        exact_mod_cast this
      refine ⟨a1 - a0, d1, hd1, ?_, ?_⟩
      · rw [← he, hn1, hf0]
        show (a1 : ℚ) * gridSize bpm grid - (a0 : ℚ) * gridSize bpm grid =
          ((a1 - a0 : ℕ) : ℚ) * gridSize bpm grid
        rw [Nat.cast_sub ha]
        ring
      · rw [← he, hn1, hf0]
        show (a1 : ℚ) * gridSize bpm grid + (d1 : ℚ) * gridSize bpm grid -
            (a0 : ℚ) * gridSize bpm grid =
          ((a1 : ℚ) * gridSize bpm grid - (a0 : ℚ) * gridSize bpm grid) +
            (d1 : ℚ) * gridSize bpm grid
        ring

/-! ### Claim C5 -/

/-- **C5 counterexample.** At bpm 500 and grid "1/16" the cell is 0.03 s;
a 0.001 s note is first stretched to the 0.05 s minimum (not a whole number
of cells), and re-quantizing rounds that 0.05 s duration to 2 cells
(0.06 s).  Both outputs start at 0, so the rebasing step plays no role:
re-quantizing the quantized output changes it. -/
theorem quantize_rhythm_cex :
    quantize_rhythm
        (quantize_rhythm [⟨60, 0, 1/1000⟩] "1/16" 500 0 "straight" fun _ => 0)
        "1/16" 500 0 "straight" (fun _ => 0) ≠
      quantize_rhythm [⟨60, 0, 1/1000⟩] "1/16" 500 0 "straight" fun _ => 0 := by
  have hg : gridSize 500 "1/16" = 3/100 := by
    rw [gridSize, show grid_divisions.lookup "1/16" = some (1/4) from rfl]
    norm_num
  have h1 : quantize_rhythm [⟨60, 0, 1/1000⟩] "1/16" 500 0 "straight"
      (fun _ => 0) = [⟨60, 0, 1/20⟩] := by
    rw [quantize_rhythm, if_neg (by simp), straight_groove, hg]
    simp only [List.enum, List.enumFrom, List.map]
    rw [quantizeNote_eq]
    norm_num [pyRound]
    rw [sortByStart, List.mergeSort_of_sorted (by simp), rebase_cons]
    norm_num
  have h2 : quantize_rhythm [(⟨60, 0, 1/20⟩ : Note)] "1/16" 500 0 "straight"
      (fun _ => 0) = [⟨60, 0, 3/50⟩] := by
    rw [quantize_rhythm, if_neg (by simp), straight_groove, hg]
    simp only [List.enum, List.enumFrom, List.map]
    rw [quantizeNote_eq]
    norm_num [pyRound]
    rw [sortByStart, List.mergeSort_of_sorted (by simp), rebase_cons]
    norm_num
  rw [h1, h2]
  simp only [ne_eq, List.cons.injEq, Note.mk.injEq]
  norm_num

/-- **C5 (amended).** Rhythm quantization with `humanize = 0` and the
"straight" groove is idempotent for note lists with non-negative start
times, provided the grid cell `gridSize bpm grid` is at least 0.05 s (as
holds for every supported grid at the default 120 BPM); the second pass
then reproduces the first pass's output exactly, rebasing included.  When
the cell is smaller than 0.05 s the minimum-duration clamp can break
idempotence (see the counterexample). -/
theorem quantize_rhythm_idempotent (notes : List Note) (grid : String)
    (bpm : ℚ) (r1 r2 : ℕ → ℚ) (hg : 1/20 ≤ gridSize bpm grid)
    (hs : ∀ n ∈ notes, 0 ≤ n.start) :
    quantize_rhythm (quantize_rhythm notes grid bpm 0 "straight" r1)
        grid bpm 0 "straight" r2 =
      quantize_rhythm notes grid bpm 0 "straight" r1 := by
  by_cases hne : notes = []
  · subst hne; rfl
  · have haligned := quantize_rhythm_straight_aligned notes grid bpm r1 hg hs
    have hsorted := quantize_rhythm_sorted notes grid bpm 0 "straight" r1
    have hLne := quantize_rhythm_ne_nil notes grid bpm 0 "straight" r1 hne
    obtain ⟨f, t, hft, hf0⟩ :=
      quantize_rhythm_head_start notes grid bpm 0 "straight" r1 hne
    set L := quantize_rhythm notes grid bpm 0 "straight" r1 with hL
    rw [quantize_rhythm, if_neg hLne, straight_groove]
    have hmap : (L.enum.map fun p =>
        quantizeNote (gridSize bpm grid) [0, 0, 0, 0, 0, 0, 0, 0] 0 r2
          p.1 p.2) = L := by
      have hpt : ∀ p ∈ L.enum,
          quantizeNote (gridSize bpm grid) [0, 0, 0, 0, 0, 0, 0, 0] 0 r2
            p.1 p.2 = Prod.snd p := by
        intro p hp
        have hpL : p.2 ∈ L := List.snd_mem_of_mem_enum hp
        obtain ⟨a, d, hd, hstart, hstop⟩ := haligned p.2 hpL
        exact quantizeNote_fixed (gridSize bpm grid) hg r2 p.1
          p.2.midi p.2.start p.2.stop a d hd hstart (by rw [hstop])
      rw [List.map_congr_left hpt, List.enum_map_snd]
    rw [hmap, sortByStart_eq_self hsorted, hft]
    exact rebase_eq_self f t hf0

/-- Witness for C5 (amended): one note at the default 120 BPM, grid 1/8
(cell 0.25 s ≥ 0.05 s). -/
theorem quantize_rhythm_idempotent_witness :
    quantize_rhythm
        (quantize_rhythm [⟨60, 0, 1/4⟩] "1/8" 120 0 "straight" fun _ => 0)
        "1/8" 120 0 "straight" (fun _ => 0) =
      quantize_rhythm [⟨60, 0, 1/4⟩] "1/8" 120 0 "straight" fun _ => 0 :=
  quantize_rhythm_idempotent [⟨60, 0, 1/4⟩] "1/8" 120 (fun _ => 0) (fun _ => 0)
    (by rw [gridSize, show grid_divisions.lookup "1/8" = some (1/2) from rfl]
        norm_num)
    (by intro n hn; rw [List.mem_singleton] at hn; rw [hn])

/-! ## rhythm_processor.py: detect_tempo -/

/-- `a.min()` over a nonempty array; 0 on empty (callers guard). -/
def listMin : List ℚ → ℚ
  | [] => 0
  | h :: t => t.foldl min h

/-- `a.max()` over a nonempty array; 0 on empty (callers guard). -/
def listMax : List ℚ → ℚ
  | [] => 0
  | h :: t => t.foldl max h

/-- Bin edge `i` of `np.histogram(data, bins)`: `linspace(lo, hi, bins+1)`. -/
def histEdge (lo hi : ℚ) (nbins i : ℕ) : ℚ := lo + i * (hi - lo) / nbins

/-- Bin counts of `np.histogram`: bin `i` counts values in
`[e_i, e_{i+1})`; the last bin is closed on the right. -/
def histCounts (data : List ℚ) (lo hi : ℚ) (nbins : ℕ) : List ℕ :=
  (List.range nbins).map fun i =>
    (data.filter fun v =>
      if i = nbins - 1 then histEdge lo hi nbins i ≤ v ∧ v ≤ hi
      else histEdge lo hi nbins i ≤ v ∧ v < histEdge lo hi nbins (i + 1)).length

/-- `np.argmax`: index of the first occurrence of the maximum. -/
def argmaxList (l : List ℕ) : ℕ :=
  (l.enum.foldl (fun acc p => if acc.2 < p.2 then p else acc) (0, l.headD 0)).1

/-- `detect_tempo` (rhythm_processor.py): estimate BPM from inter-onset
intervals via a 20-bin histogram.  `np.histogram`'s degenerate-range rule
(equal min and max widen to ±0.5) is modelled explicitly. -/
def detect_tempo (notes : List Note) : ℚ :=
  if notes.length < 4 then 120
  else
    let onsets := notes.map Note.start
    let diffs := (onsets.zip onsets.tail).map fun p => p.2 - p.1
    let intervals := diffs.filter fun x => 1/10 < x ∧ x < 2
    if intervals.length = 0 then 120
    else
      let lo0 := listMin intervals
      let hi0 := listMax intervals
      let lo := if lo0 = hi0 then lo0 - 1/2 else lo0
      let hi := if lo0 = hi0 then hi0 + 1/2 else hi0
      let most_common_interval :=
        histEdge lo hi 20 (argmaxList (histCounts intervals lo hi 20))
      let bpm_quarter := 60 / most_common_interval
      let bpm_eighth := 60 / (most_common_interval * 2)
      if 60 ≤ bpm_quarter ∧ bpm_quarter ≤ 180 then (pyRound bpm_quarter : ℚ)
      else if 60 ≤ bpm_eighth ∧ bpm_eighth ≤ 180 then (pyRound bpm_eighth : ℚ)
      else if bpm_quarter < 60 then (pyRound (bpm_quarter * 2) : ℚ)
      else if 180 < bpm_quarter then (pyRound (bpm_quarter / 2) : ℚ)
      else 120

/-! ### Claim C6 -/

set_option maxHeartbeats 1000000 in
/-- **C6.** For a five-note list with onsets at 0.0, 0.5, 1.0, 1.5 and 2.0
seconds (four 0.5 s inter-onset intervals; pitches and note ends
arbitrary), the tempo estimator returns 120 BPM: the degenerate histogram
range widens to [0, 1], the modal bin's left edge is 0.5 s, and
60 / 0.5 = 120 lies in the preferred range. -/
theorem detect_tempo_scenario (m0 m1 m2 m3 m4 : ℤ) (e0 e1 e2 e3 e4 : ℚ) :
    detect_tempo [⟨m0, 0, e0⟩, ⟨m1, 1/2, e1⟩, ⟨m2, 1, e2⟩,
      ⟨m3, 3/2, e3⟩, ⟨m4, 2, e4⟩] = 120 := by
  rw [detect_tempo]
  norm_num [listMin, listMax, histCounts, histEdge, argmaxList, pyRound,
    List.range_succ, List.enum, List.enumFrom]

/-! ## melody_generator.py: notes_to_midi -/

/-- mido's default ticks per beat. -/
def ticks_per_beat : ℕ := 480

/-- Event-emission loop of `notes_to_midi`: per note (in sorted order) a
note_on with delta `max 0 (start_tick - last_tick)` and a note_off with
delta `max 1 (end_tick - start_tick)`; `last_tick` becomes
`start_tick + dur_ticks`. -/
def midiDeltaAux (tps : ℚ) : ℤ → List Note → List ℤ
  | _, [] => []
  | last_tick, n :: rest =>
    let start_tick := pyRound (n.start * tps)
    let end_tick := pyRound (n.stop * tps)
    let dur_ticks := max 1 (end_tick - start_tick)
    let delta := max 0 (start_tick - last_tick)
    delta :: dur_ticks :: midiDeltaAux tps (start_tick + dur_ticks) rest

/-- `notes_to_midi` (melody_generator.py), modelled as the sequence of
emitted event delta-times (note_on / note_off interleaved), with
`ticks_per_second = ticks_per_beat / (60 / tempo_bpm)`. -/
def notes_to_midi_deltas (notes : List Note) (tempo_bpm : ℕ) : List ℤ :=
  midiDeltaAux ((ticks_per_beat : ℚ) / (60 / (tempo_bpm : ℚ))) 0
    (sortByStart notes)

lemma midiDeltaAux_nonneg (tps : ℚ) :
    ∀ (l : List Note) (lt : ℤ), ∀ d ∈ midiDeltaAux tps lt l, 0 ≤ d := by
  intro l
  induction l with
  | nil => intro lt d hd; cases hd
  | cons n rest ih =>
    intro lt d hd
    rw [midiDeltaAux] at hd
    rcases List.mem_cons.mp hd with h | h
    · rw [h]; exact le_max_left _ _
    · rcases List.mem_cons.mp h with h' | h'
      · rw [h']
        calc (0 : ℤ) ≤ 1 := by norm_num
          _ ≤ _ := le_max_left _ _
      · exact ih _ d h'

lemma chain_scanl_of_nonneg :
    ∀ (l : List ℤ) (a : ℤ), (∀ d ∈ l, 0 ≤ d) →
      List.Chain' (· ≤ ·) (l.scanl (· + ·) a) := by
  intro l
  induction l with
  | nil => intro a _; simp
  | cons d t ih =>
    intro a h
    rw [List.scanl_cons, List.singleton_append, List.chain'_cons']
    constructor
    · intro y hy
      have hh : (List.scanl (· + ·) (a + d) t).head? = some (a + d) := by
        cases t <;> rfl
      rw [hh, Option.mem_some_iff] at hy
      have hd0 : 0 ≤ d := h d (List.mem_cons_self _ _)
      omega
    · exact ih (a + d) fun x hx => h x (List.mem_cons_of_mem _ hx)

/-! ### Claim C4 -/

/-- **C4.** For every note list (overlapping notes included) and every
tempo, every delta-time emitted by the symbolic renderer is non-negative,
so the cumulative tick positions (partial sums of the deltas) form a
monotonically non-decreasing stream. -/
theorem notes_to_midi_deltas_nonneg (notes : List Note) (tempo_bpm : ℕ) :
    (∀ d ∈ notes_to_midi_deltas notes tempo_bpm, 0 ≤ d) ∧
    List.Chain' (· ≤ ·)
      ((notes_to_midi_deltas notes tempo_bpm).scanl (· + ·) 0) := by
  have h := midiDeltaAux_nonneg
    ((ticks_per_beat : ℚ) / (60 / (tempo_bpm : ℚ))) (sortByStart notes) 0
  exact ⟨fun d hd => h d hd, chain_scanl_of_nonneg _ 0 fun d hd => h d hd⟩

/-! ## melody_generator.py: notes_to_wav -/

/-- `start_sample = int(sr * n["start"])`. -/
def startSample (sr : ℕ) (n : Note) : ℤ := pyTrunc ((sr : ℚ) * n.start)

/-- `end_sample = max(int(sr * n["end"]), start_sample + 1)`. -/
def endSample (sr : ℕ) (n : Note) : ℤ :=
  max (pyTrunc ((sr : ℚ) * n.stop)) (startSample sr n + 1)

/-- `total_samples = int(sr * (max_time + 0.5))`. -/
def totalSamples (sr : ℕ) (notes : List Note) : ℕ :=
  (pyTrunc ((sr : ℚ) * (maxEnd notes + 1/2))).toNat

/-- One sample of the mixed buffer: every note whose sample window
`[start_sample, end_sample)` covers `j` contributes its synthesized tone at
half amplitude.  The oracle `tone k t` abstracts
`generate_instrument_tone` (additive synthesis with random detune, ADSR
envelope and brightness) for note index `k` at tone-local sample `t`. -/
def mixedSample (notes : List Note) (tone : ℕ → ℕ → ℚ) (sr : ℕ) (j : ℕ) : ℚ :=
  (notes.enum.map fun p =>
    if startSample sr p.2 ≤ (j : ℤ) ∧ (j : ℤ) < endSample sr p.2 then
      tone p.1 ((j - startSample sr p.2).toNat) * (1/2)
    else 0).sum

/-- The mixed (pre-normalization) float buffer of `notes_to_wav`. -/
def audioBuffer (notes : List Note) (tone : ℕ → ℕ → ℚ) (sr : ℕ) : List ℚ :=
  (List.range (totalSamples sr notes)).map (mixedSample notes tone sr)

/-- `max_val = np.max(np.abs(audio))` (0 base is exact: entries are
compared after `abs`). -/
def maxAbs (l : List ℚ) : ℚ := l.foldr (fun x a => max |x| a) 0

/-- `if max_val > 0: audio = audio / max_val * 0.85`. -/
def normalizeBuffer (l : List ℚ) : List ℚ :=
  if 0 < maxAbs l then l.map fun x => x / maxAbs l * (17/20) else l

/-- The float buffer written by `notes_to_wav` (before 16-bit
quantization). -/
def wavBuffer (notes : List Note) (tone : ℕ → ℕ → ℚ) (sr : ℕ) : List ℚ :=
  normalizeBuffer (audioBuffer notes tone sr)

/-- `notes_to_wav` (melody_generator.py): raises
`ValueError("No notes to render")` on an empty note list — before any
buffer is built or any file is opened — and otherwise produces the
normalized buffer. -/
def notes_to_wav (notes : List Note) (tone : ℕ → ℕ → ℚ) (sr : ℕ) :
    Except String (List ℚ) :=
  if notes = [] then Except.error "No notes to render"
  else Except.ok (wavBuffer notes tone sr)

lemma le_maxAbs {x : ℚ} {l : List ℚ} (h : x ∈ l) : |x| ≤ maxAbs l := by
  induction l with
  | nil => cases h
  | cons y t ih =>
    rcases List.mem_cons.mp h with he | hm
    · rw [he, maxAbs, List.foldr_cons]; exact le_max_left _ _
    · calc |x| ≤ maxAbs t := ih hm
        _ ≤ max |y| (maxAbs t) := le_max_right _ _

lemma normalizeBuffer_length (l : List ℚ) :
    (normalizeBuffer l).length = l.length := by
  rw [normalizeBuffer]
  split
  · rw [List.length_map]
  · rfl

lemma audioBuffer_length (notes : List Note) (tone : ℕ → ℕ → ℚ) (sr : ℕ) :
    (audioBuffer notes tone sr).length = totalSamples sr notes := by
  rw [audioBuffer, List.length_map, List.length_range]

/-! ### Claim C3 -/

/-- **C3 counterexample.** For the single note `{60, 0, 2^-20}` at
44100 Hz, `sr * (max(end) + 0.5) = 22050.042...` is not an integer, and
`int(...)` truncates: the buffer has 22050 samples, strictly fewer than
`sr * (max(end) + 0.5)`, so "length ≥ sr * (max(end) + 0.5)" fails. -/
theorem notes_to_wav_length_cex :
    notes_to_wav [⟨60, 0, 1/1048576⟩] (fun _ _ => 0) 44100 =
      Except.ok (wavBuffer [⟨60, 0, 1/1048576⟩] (fun _ _ => 0) 44100) ∧
    ((wavBuffer [⟨60, 0, 1/1048576⟩] (fun _ _ => 0) 44100).length : ℚ) <
      44100 * ((1 : ℚ)/1048576 + 1/2) := by
  constructor
  · rw [notes_to_wav, if_neg (by simp)]
  · have hmax : maxEnd [(⟨60, 0, 1/1048576⟩ : Note)] = 1/1048576 := by
      simp only [maxEnd, List.foldr]
      norm_num
    have hlen : (wavBuffer [(⟨60, 0, 1/1048576⟩ : Note)]
        (fun _ _ => 0) 44100).length = 22050 := by
      rw [wavBuffer, normalizeBuffer_length, audioBuffer_length,
        totalSamples, hmax, pyTrunc, if_neg (by norm_num)]
      rw [show ((44100 : ℕ) : ℚ) * (1/1048576 + 1/2) = 22050 + 11025/262144
        from by norm_num]
      rw [show ⌊(22050 : ℚ) + 11025/262144⌋ = 22050 from by
        rw [Int.floor_eq_iff]
        norm_num]
      rfl
    rw [hlen]
    norm_num

/-- **C3 (amended).** For every nonempty note list, sample rate and tone
realisation, the rendered buffer's peak amplitude never exceeds 0.85 of
full scale, and its length is exactly `int(sr * (max(end) + 0.5))` — the
floor of `sr * (max(end) + 0.5)`, which can be (at most one sample) below
that product but never above it. -/
theorem notes_to_wav_peak_length (notes : List Note) (tone : ℕ → ℕ → ℚ)
    (sr : ℕ) (hne : notes ≠ []) :
    notes_to_wav notes tone sr = Except.ok (wavBuffer notes tone sr) ∧
    (wavBuffer notes tone sr).length =
      (pyTrunc ((sr : ℚ) * (maxEnd notes + 1/2))).toNat ∧
    ∀ x ∈ wavBuffer notes tone sr, |x| ≤ 17/20 := by
  refine ⟨by rw [notes_to_wav, if_neg hne], ?_, ?_⟩
  · rw [wavBuffer, normalizeBuffer_length, audioBuffer_length, totalSamples]
  · intro x hx
    rw [wavBuffer, normalizeBuffer] at hx
    by_cases hm : 0 < maxAbs (audioBuffer notes tone sr)
    · rw [if_pos hm, List.mem_map] at hx
      obtain ⟨y, hy, he⟩ := hx
      have h1 : |y| ≤ maxAbs (audioBuffer notes tone sr) := le_maxAbs hy
      rw [← he, abs_mul, abs_div]
      have h2 : |maxAbs (audioBuffer notes tone sr)| =
          maxAbs (audioBuffer notes tone sr) := abs_of_pos hm
      rw [h2]
      have h3 : |y| / maxAbs (audioBuffer notes tone sr) ≤ 1 :=
        (div_le_one hm).mpr h1
      have h4 : |(17 : ℚ)/20| = 17/20 := by norm_num
      rw [h4]
      nlinarith [abs_nonneg y]
    · rw [if_neg hm] at hx
      have h1 : |x| ≤ maxAbs (audioBuffer notes tone sr) := le_maxAbs hx
      have h0 : maxAbs (audioBuffer notes tone sr) ≤ 0 := not_lt.mp hm
      linarith

/-- Witness for C3 (amended) at a single note, silent tone, 4 Hz. -/
theorem notes_to_wav_peak_length_witness :
    notes_to_wav [⟨60, 0, 1⟩] (fun _ _ => 0) 4 =
      Except.ok (wavBuffer [⟨60, 0, 1⟩] (fun _ _ => 0) 4) ∧
    (wavBuffer [(⟨60, 0, 1⟩ : Note)] (fun _ _ => 0) 4).length =
      (pyTrunc ((4 : ℕ) * (maxEnd [(⟨60, 0, 1⟩ : Note)] + 1/2))).toNat ∧
    ∀ x ∈ wavBuffer [(⟨60, 0, 1⟩ : Note)] (fun _ _ => 0) 4, |x| ≤ 17/20 :=
  notes_to_wav_peak_length [⟨60, 0, 1⟩] (fun _ _ => 0) 4 (by simp)

/-! ### Claim C8 -/

/-- **C8.** Rendering an empty note list is an explicit error
(`ValueError("No notes to render")`), raised before any buffer is built or
output written: the renderer never returns a buffer for empty input. -/
theorem notes_to_wav_empty_error (tone : ℕ → ℕ → ℚ) (sr : ℕ) :
    notes_to_wav [] tone sr = Except.error "No notes to render" ∧
    ∀ buf, notes_to_wav [] tone sr ≠ Except.ok buf := by
  refine ⟨rfl, ?_⟩
  intro buf h
  simp [notes_to_wav] at h
